import Mathlib

/-!
# audio_file_compare: word decoding and stereo interleaving

A shallow embedding of `audio_file_compare.cpp`.

* `unsigned char` is `Byte = Fin 256`; `unsigned int` is a `Nat` kept below `2 ^ 32`
  by explicit reduction; `int` is an `Int` obtained through `toInt32`.
* A `FILE` opened for reading is the list of bytes not yet consumed together with
  its end-of-file indicator.
* The automatic array `wordArray[4]` is a list of four cells, each either
  indeterminate (`none`) or holding a byte.  Accesses outside the array, reads of an
  indeterminate cell and shifts by a count outside `0..31` are reported as a `Fault`
  instead of being given a meaning.
* `while` loops whose termination depends on the data take a fuel argument.
-/

namespace AudioFileCompare

/-- An `unsigned char`. -/
abbrev Byte := Fin 256

/-- Ways in which an execution leaves the defined behaviour of the language, plus
exhaustion of the loop budget of the embedding. -/
inductive Fault where
  | outOfBounds
  | indeterminate
  | shiftRange
  | nullStream
  | outOfFuel
  deriving DecidableEq, Repr

deriving instance DecidableEq for Except

/-- An input stream: the bytes that have not been read yet and the end-of-file
indicator tested by `feof`. -/
structure FILE where
  rest : List Byte
  eof : Bool
  deriving DecidableEq, Repr

/-- A stream as `fopen(name, "rb")` returns it for a file with the given content. -/
def FILE.opened (content : List Byte) : FILE := { rest := content, eof := false }

/-- The test `feof(stream)`. -/
def feof (stream : FILE) : Bool := stream.eof

/-- The four cells of `unsigned char wordArray[4]`; `none` is an indeterminate value. -/
abbrev WordArray := List (Option Byte)

/-- The array `wordArray` at its declaration, before anything is stored in it. -/
def WordArray.fresh : WordArray := [none, none, none, none]

/-- Read access `*(pArray + i)`. -/
def load (pArray : WordArray) (i : Nat) : Except Fault Byte :=
  match pArray.get? i with
  | none => .error .outOfBounds
  | some none => .error .indeterminate
  | some (some b) => .ok b

/-- Write access `*(pArray + i) = b`. -/
def store (pArray : WordArray) (i : Nat) (b : Byte) : Except Fault WordArray :=
  if i < pArray.length then .ok (pArray.set i (some b)) else .error .outOfBounds

/-- Storing a run of bytes at consecutive positions starting at `i`. -/
def storeFrom (pArray : WordArray) (i : Nat) : List Byte → Except Fault WordArray
  | [] => .ok pArray
  | b :: bs =>
    match store pArray i b with
    | .error e => .error e
    | .ok p => storeFrom p (i + 1) bs

/-- The call `fread(ptr, size, 1, stream)`: the number of complete items read (0 or 1),
the array after the transfer and the stream after the call.  A request of size zero
returns 0 and leaves the stream untouched.  Otherwise the bytes available, up to
`size`, are transferred; when fewer than `size` are available the item is incomplete,
the stream ends up at its end and its end-of-file indicator is set. -/
def fread (ptr : WordArray) (size : Nat) (stream : FILE) :
    Except Fault (Nat × WordArray × FILE) :=
  if size = 0 then .ok (0, ptr, stream)
  else
    match storeFrom ptr 0 (stream.rest.take size) with
    | .error e => .error e
    | .ok p =>
      if size ≤ stream.rest.length then
        .ok (1, p, { stream with rest := stream.rest.drop size })
      else
        .ok (0, p, { rest := [], eof := true })

/-- A counted loop `for (int x = start; x < start + n; x++) state = body x state`. -/
def forLoop {σ : Type} (body : Nat → σ → Except Fault σ) : Nat → Nat → σ → Except Fault σ
  | 0, _, s => .ok s
  | n + 1, x, s =>
    match body x s with
    | .error e => .error e
    | .ok s1 => forLoop body n (x + 1) s1

/-- Conversion `unsigned char` to `char` (a signed 8-bit type). -/
def toChar (b : Byte) : Int := if b.val < 128 then (b.val : Int) else (b.val : Int) - 256

/-- Conversion `char` to `unsigned char`. -/
def toUnsignedChar (c : Int) : Byte := ⟨(c % 256).toNat % 256, Nat.mod_lt _ (by decide)⟩

/-- One iteration of the loop of `reverseEndian`:
`c = *(pArray + x); *(pArray + width - x - 1) = c;`. -/
def reverseEndianBody (width : Nat) (x : Nat) (pArray : WordArray) : Except Fault WordArray :=
  match load pArray x with
  | .error e => .error e
  | .ok b =>
    let c : Int := toChar b
    store pArray (width - x - 1) (toUnsignedChar c)

/-- The function `reverseEndian(pArray, width)`. -/
def reverseEndian (pArray : WordArray) (width : Nat) : Except Fault WordArray :=
  forLoop (reverseEndianBody width) width 0 pArray

/-- The shift `a << s` on `unsigned int`. -/
def shiftLeft32 (a : Nat) (s : Nat) : Except Fault Nat :=
  if s < 32 then .ok ((a <<< s) % 2 ^ 32) else .error .shiftRange

/-- The `int` expression `1 << s`, as the `unsigned int` it is converted to when it
meets `unsignedNumber` in `&` and `|=`. -/
def oneShiftLeft (s : Nat) : Except Fault Nat := shiftLeft32 1 s

/-- One iteration of the loop that calculates the number:
`unsignedNumber += ((unsigned int) (wordArray[x])) << (x << 3);`. -/
def assembleBody (wordArray : WordArray) (x : Nat) (unsignedNumber : Nat) : Except Fault Nat :=
  match load wordArray x with
  | .error e => .error e
  | .ok b =>
    match shiftLeft32 b.val (x <<< 3) with
    | .error e => .error e
    | .ok t => .ok ((unsignedNumber + t) % 2 ^ 32)

/-- One iteration of the sign-extension loop: `unsignedNumber |= (1 << x);`. -/
def signExtendBody (x : Nat) (unsignedNumber : Nat) : Except Fault Nat :=
  match oneShiftLeft x with
  | .error e => .error e
  | .ok m => .ok (unsignedNumber ||| m)

/-- The statement `if (unsignedNumber & (1 << ((wordWidth << 3) - 1))) { for (int x =
(wordWidth << 3); x < sizeof(wordArray) << 3; x++) unsignedNumber |= (1 << x); }`. -/
def dealWithSign (wordWidth : Nat) (unsignedNumber : Nat) : Except Fault Nat :=
  match oneShiftLeft ((wordWidth <<< 3) - 1) with
  | .error e => .error e
  | .ok m =>
    if unsignedNumber &&& m ≠ 0 then
      forLoop signExtendBody ((4 <<< 3) - (wordWidth <<< 3)) (wordWidth <<< 3) unsignedNumber
    else .ok unsignedNumber

/-- The conversion `(int) unsignedNumber`. -/
def toInt32 (u : Nat) : Int :=
  if u % 2 ^ 32 < 2 ^ 31 then ((u % 2 ^ 32 : Nat) : Int) else ((u % 2 ^ 32 : Nat) : Int) - 2 ^ 32

/-- The body of `if (fread(...) == 1)` in `readWord`: optional reversal, assembly of
the number, sign extension. -/
def decodeWord (wordArray : WordArray) (wordWidth : Nat) (isLittleEndian : Bool) :
    Except Fault Nat :=
  match (if !isLittleEndian then reverseEndian wordArray wordWidth else .ok wordArray) with
  | .error e => .error e
  | .ok w1 =>
    match forLoop (assembleBody w1) wordWidth 0 0 with
    | .error e => .error e
    | .ok u => dealWithSign wordWidth u

/-- The function `readWord(pInputFile, wordWidth, isLittleEndian)`: the `int` returned
and the stream after the call. -/
def readWord (pInputFile : FILE) (wordWidth : Nat) (isLittleEndian : Bool) :
    Except Fault (Int × FILE) :=
  match fread WordArray.fresh wordWidth pInputFile with
  | .error e => .error e
  | .ok (items, wordArray, stream) =>
    if items = 1 then
      match decodeWord wordArray wordWidth isLittleEndian with
      | .error e => .error e
      | .ok unsignedNumber => .ok (toInt32 unsignedNumber, stream)
    else .ok (toInt32 0, stream)

/-- A byte from a natural number, reduced modulo 256. -/
def byteOf (n : Nat) : Byte := ⟨n % 256, Nat.mod_lt _ (by decide)⟩

/-- The object representation of an `int`: the four bytes of its two's-complement
pattern, in the byte order of the host. -/
def intBytes (hostLittleEndian : Bool) (number : Int) : List Byte :=
  let u : Nat := (number % 2 ^ 32).toNat
  let lowFirst : List Byte :=
    [byteOf u, byteOf (u / 2 ^ 8), byteOf (u / 2 ^ 16), byteOf (u / 2 ^ 24)]
  if hostLittleEndian then lowFirst else lowFirst.reverse

/-- The call `fwrite((const void *) &number, sizeof(number), 1, pOutputFile)` on an
output stream given by the bytes written so far. -/
def fwrite (hostLittleEndian : Bool) (number : Int) (pOutputFile : List Byte) : List Byte :=
  pOutputFile ++ intBytes hostLittleEndian number

/-- Reduction of an integer to the range of `int`, as `int` arithmetic behaves on
two's-complement targets. -/
def wrapInt32 (v : Int) : Int := (v + 2 ^ 31) % 2 ^ 32 - 2 ^ 31

/-- What `parse` leaves behind: the value it returns, both input streams and the
content of the output stream. -/
structure ParseResult where
  itemsWritten : Int
  inputLeft : FILE
  inputRight : FILE
  output : List Byte
  deriving DecidableEq, Repr

/-- The loop `while (!finished)` of `parse`; one unit of fuel per iteration. -/
def parseLoop (hostLittleEndian : Bool) (wordWidthLeft : Nat) (isLittleEndianLeft : Bool)
    (wordWidthRight : Nat) (isLittleEndianRight : Bool) :
    Nat → FILE → FILE → List Byte → Int → Except Fault ParseResult
  | 0, _, _, _, _ => .error .outOfFuel
  | fuel + 1, pInputFileLeft, pInputFileRight, pOutputFile, itemsWritten =>
    match readWord pInputFileLeft wordWidthLeft isLittleEndianLeft with
    | .error e => .error e
    | .ok (numberLeft, left1) =>
      match readWord pInputFileRight wordWidthRight isLittleEndianRight with
      | .error e => .error e
      | .ok (numberRight, right1) =>
        if feof left1 && feof right1 then
          .ok { itemsWritten := itemsWritten, inputLeft := left1, inputRight := right1,
                output := pOutputFile }
        else
          parseLoop hostLittleEndian wordWidthLeft isLittleEndianLeft wordWidthRight
            isLittleEndianRight fuel left1 right1
            (fwrite hostLittleEndian numberRight (fwrite hostLittleEndian numberLeft pOutputFile))
            (wrapInt32 (itemsWritten + 1))

/-- The function `parse`, run with a budget of `fuel` loop iterations on a host of the
given byte order. -/
def parse (fuel : Nat) (hostLittleEndian : Bool)
    (pInputFileLeft : FILE) (wordWidthLeft : Nat) (isLittleEndianLeft : Bool)
    (pInputFileRight : FILE) (wordWidthRight : Nat) (isLittleEndianRight : Bool)
    (pOutputFile : List Byte) : Except Fault ParseResult :=
  parseLoop hostLittleEndian wordWidthLeft isLittleEndianLeft wordWidthRight
    isLittleEndianRight fuel pInputFileLeft pInputFileRight pOutputFile 0

/-- The library function `atoi` on the digits at the head of a text: the value read so
far is `acc`. -/
def atoiDigits : List Char → Nat → Nat
  | [], acc => acc
  | c :: cs, acc => if c.isDigit then atoiDigits cs (10 * acc + (c.toNat - 48)) else acc

/-- The library predicate `isspace` in the C locale: space, and the controls from
horizontal tab to carriage return. -/
def isspace (c : Char) : Bool := c.toNat = 32 || (9 ≤ c.toNat && c.toNat ≤ 13)

/-- The library function `atoi`: leading white space, an optional sign, then decimal
digits up to the first other character; the result reduced to the range of `int`. -/
def atoi (text : String) : Int :=
  match text.data.dropWhile isspace with
  | '-' :: cs => wrapInt32 (-(atoiDigits cs 0 : Int))
  | '+' :: cs => wrapInt32 (atoiDigits cs 0)
  | cs => wrapInt32 (atoiDigits cs 0)

/-- The files `main` can open: the content of each file that `fopen(name, "rb")` opens,
and whether `fopen(name, "wb")` succeeds. -/
structure FileSystem where
  readable : String → Option (List Byte)
  writable : String → Bool

/-- The call `fopen(name, "rb")`; `none` is the null pointer. -/
def fopenRead (fs : FileSystem) (name : String) : Option FILE :=
  (fs.readable name).map FILE.opened

/-- The call `fopen(name, "wb")`: an empty output stream, or `none` for the null
pointer. -/
def fopenWrite (fs : FileSystem) (name : String) : Option (List Byte) :=
  if fs.writable name then some [] else none

/-- The character `*p` at the start of a C string: its first character, or the
terminating null character when the string is empty. -/
def firstChar (text : String) : Char := text.data.headD (Char.ofNat 0)

/-- The arguments of the call of `parse` in `main`, as the parameters of `parse`
receive them, in the order of its parameter list. -/
structure ParseCall where
  pInputFileLeft : Option FILE
  wordWidthLeft : Nat
  isLittleEndianLeft : Bool
  pInputFileRight : Option FILE
  wordWidthRight : Nat
  isLittleEndianRight : Bool
  pOutputFile : Option (List Byte)
  deriving DecidableEq, Repr

/-- Conversion of a `bool` argument to an `int` parameter. -/
def boolToInt (b : Bool) : Nat := if b then 1 else 0

/-- Conversion of an `int` argument to a `bool` parameter. -/
def intToBool (v : Int) : Bool := decide (v ≠ 0)

/-- The part of `main` up to the decision to call `parse`: the value of `success` when
that decision is taken, and the call made when it is true.  `argv` includes the program
name at position 0; the text printed is not modelled. -/
def mainDecision (argv : List String) (fs : FileSystem) : Bool × Option ParseCall :=
  let pInputFileNameLeft : Option String := argv.get? 1
  let pEndiannessLeft : Option String := argv.get? 2
  let wordWidthLeft : Int := (argv.get? 3).elim 0 atoi
  let pInputFileNameRight : Option String := argv.get? 4
  let pEndiannessRight : Option String := argv.get? 5
  let wordWidthRight : Int := (argv.get? 6).elim 0 atoi
  let pOutputFileName : Option String := argv.get? 7
  match pInputFileNameLeft, pEndiannessLeft, pInputFileNameRight, pEndiannessRight,
      pOutputFileName with
  | some nameLeft, some endianLeft, some nameRight, some endianRight, some nameOut =>
    if wordWidthLeft > 0 ∧ wordWidthRight > 0 then
      let success := true
      -- Check that endianness makes sense
      let success :=
        if (endianLeft.length ≠ 1 ∨ (firstChar endianLeft ≠ 'l' ∧ firstChar endianLeft ≠ 'b')) ∧
            (endianRight.length ≠ 1 ∨
              (firstChar endianRight ≠ 'l' ∧ firstChar endianRight ≠ 'b')) then false
        else success
      -- Check that the word width makes sense
      let success := if wordWidthLeft > 4 ∧ wordWidthRight > 4 then false else success
      let pInputFileLeft := fopenRead fs nameLeft
      let success := if pInputFileLeft.isNone then false else success
      let pInputFileRight := fopenRead fs nameRight
      let success := if pInputFileLeft.isNone then false else success
      let pOutputFile := fopenWrite fs nameOut
      let success := if pOutputFile.isNone then false else success
      if success then
        (success, some
          { pInputFileLeft := pInputFileLeft
            wordWidthLeft := boolToInt (decide (firstChar endianLeft = 'l'))
            isLittleEndianLeft := intToBool wordWidthLeft
            pInputFileRight := pInputFileRight
            wordWidthRight := boolToInt (decide (firstChar endianRight = 'l'))
            isLittleEndianRight := intToBool wordWidthRight
            pOutputFile := pOutputFile })
      else (success, none)
    else (false, none)
  | _, _, _, _, _ => (false, none)

/-- What `main` leaves behind: its return value, the call of `parse` it made if any,
and the content of the output file after that call. -/
structure MainResult where
  retValue : Int
  call : Option ParseCall
  output : Option (List Byte)
  deriving DecidableEq, Repr

/-- The function `main`: the decision above, then the call of `parse` when `success`
holds, then `retValue`.  A null stream handed to `parse` is a fault. -/
def main (fuel : Nat) (hostLittleEndian : Bool) (argv : List String) (fs : FileSystem) :
    Except Fault MainResult :=
  match mainDecision argv fs with
  | (success, none) =>
    .ok { retValue := if success then 0 else -1, call := none, output := none }
  | (success, some call) =>
    match call.pInputFileLeft, call.pInputFileRight, call.pOutputFile with
    | some left, some right, some out =>
      match parse fuel hostLittleEndian left call.wordWidthLeft call.isLittleEndianLeft
          right call.wordWidthRight call.isLittleEndianRight out with
      | .error e => .error e
      | .ok r =>
        .ok { retValue := if success then 0 else -1, call := some call,
              output := some r.output }
    | _, _, _ => .error .nullStream

/-- The encoding that the round-trip property of the specification speaks of; it is
not part of the program.  The low `w` bytes of the two's-complement pattern of the
sample, least significant byte first for little-endian and most significant byte first
for big-endian. -/
def encodeSample (w : Nat) (isLittleEndian : Bool) (sample : Int) : List Byte :=
  let u : Nat := (sample % 2 ^ 32).toNat
  let lowFirst : List Byte := (List.range w).map (fun i => byteOf (u / 256 ^ i))
  if isLittleEndian then lowFirst else lowFirst.reverse

/-- A file system for the examples: two input files and a place for the output. -/
def exampleFiles : FileSystem where
  readable := fun name =>
    if name = "afile" then some [0x01, 0x02, 0x03, 0x04, 0x05, 0x06, 0x07, 0x08]
    else if name = "anotherfile" then some [0x11, 0x12, 0x13, 0x14]
    else none
  writable := fun name => name = "out"

/-- The unsigned value of a word read as little-endian: byte `i` weighs `256 ^ i`. -/
def littleEndianValue : List Byte → Nat
  | [] => 0
  | b :: bs => b.val + 256 * littleEndianValue bs

/-- The signed value of the `w`-byte two's-complement pattern `u`. -/
def twosComplement (w : Nat) (u : Nat) : Int :=
  if u < 2 ^ (8 * w - 1) then (u : Int) else (u : Int) - 2 ^ (8 * w)

/-- The content of `wordArray` after a word has been stored in its first cells. -/
def WordArray.holding (word : List Byte) : WordArray :=
  word.map some ++ List.replicate (4 - word.length) none

/-- What the loop of `reverseEndian` leaves of a word: position `i` ends up with the
byte that was at position `min i (w - 1 - i)`. -/
def mirrored (word : List Byte) : List Byte :=
  (List.range word.length).map
    (fun i => word.getD (min i (word.length - 1 - i)) 0)

/-- The sample computed from a complete word, in closed form. -/
def sampleOf (isLittleEndian : Bool) (word : List Byte) : Int :=
  twosComplement word.length
    (littleEndianValue (if isLittleEndian then word else mirrored word))

/-- The sample obtained at the head of a stream content: that of the first word when
one is complete, 0 otherwise. -/
def headSample (w : Nat) (isLittleEndian : Bool) (data : List Byte) : Int :=
  if w ≤ data.length then sampleOf isLittleEndian (data.take w) else 0

/-- The frames the loop of `parse` writes in `n` iterations from the given contents. -/
def framesFrom (host : Bool) (wL : Nat) (eL : Bool) (wR : Nat) (eR : Bool) :
    Nat → List Byte → List Byte → List Byte
  | 0, _, _ => []
  | n + 1, dataL, dataR =>
    (intBytes host (headSample wL eL dataL) ++ intBytes host (headSample wR eR dataR)) ++
      framesFrom host wL eL wR eR n (dataL.drop wL) (dataR.drop wR)

/-- A stream whose end-of-file indicator is set has nothing left to read. -/
def FILE.Consistent (f : FILE) : Prop := f.eof = true → f.rest = []

/-- The stream a channel ends in: at its end, end-of-file indicator set. -/
def FILE.exhausted : FILE := { rest := [], eof := true }

/-! ## Arithmetic of the sign extension -/

theorem or_two_pow_of_lt {u x : Nat} (h : u < 2 ^ x) : u ||| 2 ^ x = u + 2 ^ x := by
  have := Nat.mul_add_lt_is_or h 1
  rw [Nat.mul_one] at this
  rw [Nat.lor_comm, ← this, Nat.add_comm]

theorem and_two_pow_ne_zero_iff {u k : Nat} (h : u < 2 ^ (k + 1)) :
    u &&& 2 ^ k ≠ 0 ↔ 2 ^ k ≤ u := by
  rw [Nat.and_two_pow]
  have hpos : 0 < 2 ^ k := Nat.two_pow_pos k
  constructor
  · intro hne
    by_contra hlt
    rw [Nat.testBit_lt_two_pow (Nat.lt_of_not_le hlt)] at hne
    simp at hne
  · intro hle
    obtain ⟨r, rfl⟩ := Nat.exists_eq_add_of_le hle
    have hr : r < 2 ^ k := by rw [Nat.pow_succ] at h; omega
    rw [Nat.testBit_two_pow_add_eq, Nat.testBit_lt_two_pow hr]
    simp

theorem oneShiftLeft_eq {s : Nat} (h : s < 32) : oneShiftLeft s = .ok (2 ^ s) := by
  have hlt : 2 ^ s < 2 ^ 32 := Nat.pow_lt_pow_right (by decide) h
  unfold oneShiftLeft shiftLeft32
  rw [if_pos h, Nat.shiftLeft_eq, Nat.one_mul, Nat.mod_eq_of_lt hlt]

theorem forLoop_signExtendBody (n : Nat) : ∀ (x u : Nat), u < 2 ^ x → x + n ≤ 32 →
    forLoop signExtendBody n x u = .ok (u + (2 ^ (x + n) - 2 ^ x)) := by
  induction n with
  | zero => intro x u _ _; simp [forLoop]
  | succ n ih =>
    intro x u hu hx
    have hstep : signExtendBody x u = .ok (u + 2 ^ x) := by
      simp [signExtendBody, oneShiftLeft_eq (show x < 32 by omega), or_two_pow_of_lt hu]
    have hu1 : u + 2 ^ x < 2 ^ (x + 1) := by rw [Nat.pow_succ]; omega
    have hmono : 2 ^ (x + 1) ≤ 2 ^ (x + 1 + n) := Nat.pow_le_pow_right (by decide) (by omega)
    have h2 : 2 ^ (x + 1) = 2 * 2 ^ x := by rw [Nat.pow_succ]; omega
    simp only [forLoop, hstep]
    rw [ih (x + 1) (u + 2 ^ x) hu1 (by omega)]
    have e : x + (n + 1) = x + 1 + n := by omega
    rw [e]
    congr 1
    omega

/-- Sign extension on a `w`-byte pattern: nothing changes below the sign bit, the
bits `8 * w .. 31` are added above it. -/
theorem dealWithSign_eq {w u : Nat} (h1 : 1 ≤ w) (h4 : w ≤ 4) (hu : u < 2 ^ (8 * w)) :
    dealWithSign w u =
      .ok (if u < 2 ^ (8 * w - 1) then u else u + (2 ^ 32 - 2 ^ (8 * w))) := by
  have hs : w <<< 3 = 8 * w := by rw [Nat.shiftLeft_eq]; omega
  have hk : 8 * w - 1 + 1 = 8 * w := by omega
  have hu1 : u < 2 ^ (8 * w - 1 + 1) := by rw [hk]; exact hu
  have hiff := and_two_pow_ne_zero_iff hu1
  unfold dealWithSign
  rw [hs, oneShiftLeft_eq (show 8 * w - 1 < 32 by omega)]
  by_cases hlt : u < 2 ^ (8 * w - 1)
  · have : ¬ (u &&& 2 ^ (8 * w - 1) ≠ 0) := by rw [hiff]; omega
    simp only []
    rw [if_neg this, if_pos hlt]
  · have : u &&& 2 ^ (8 * w - 1) ≠ 0 := by rw [hiff]; omega
    simp only []
    rw [if_pos this, if_neg hlt]
    rw [forLoop_signExtendBody _ _ _ hu (by simp [Nat.shiftLeft_eq]; omega)]
    have e : 8 * w + (4 <<< 3 - 8 * w) = 32 := by simp [Nat.shiftLeft_eq]; omega
    rw [e]

theorem toInt32_dealWithSign {w u : Nat} (h1 : 1 ≤ w) (h4 : w ≤ 4) (hu : u < 2 ^ (8 * w)) :
    toInt32 (if u < 2 ^ (8 * w - 1) then u else u + (2 ^ 32 - 2 ^ (8 * w))) =
      twosComplement w u := by
  have hw : w = 1 ∨ w = 2 ∨ w = 3 ∨ w = 4 := by omega
  rcases hw with rfl | rfl | rfl | rfl <;>
    · simp only [toInt32, twosComplement] at *
      norm_num at *
      split_ifs <;> omega

/-! ## The word buffer -/

theorem toUnsignedChar_toChar (b : Byte) : toUnsignedChar (toChar b) = b := by
  apply Fin.ext
  have := b.isLt
  simp only [toUnsignedChar, toChar]
  split_ifs <;> omega

theorem length_cases {α : Type} (l : List α) (h1 : 1 ≤ l.length) (h4 : l.length ≤ 4) :
    (∃ a, l = [a]) ∨ (∃ a b, l = [a, b]) ∨ (∃ a b c, l = [a, b, c]) ∨
      (∃ a b c d, l = [a, b, c, d]) := by
  match l, h1, h4 with
  | [a], _, _ => exact Or.inl ⟨a, rfl⟩
  | [a, b], _, _ => exact Or.inr (Or.inl ⟨a, b, rfl⟩)
  | [a, b, c], _, _ => exact Or.inr (Or.inr (Or.inl ⟨a, b, c, rfl⟩))
  | [a, b, c, d], _, _ => exact Or.inr (Or.inr (Or.inr ⟨a, b, c, d, rfl⟩))
  | _ :: _ :: _ :: _ :: _ :: _, _, h => simp at h

theorem storeFrom_fresh (word : List Byte) (h4 : word.length ≤ 4) :
    storeFrom WordArray.fresh 0 word = .ok (WordArray.holding word) := by
  match word, h4 with
  | [], _ => rfl
  | [_], _ => rfl
  | [_, _], _ => rfl
  | [_, _, _], _ => rfl
  | [_, _, _, _], _ => rfl
  | _ :: _ :: _ :: _ :: _ :: _, h => simp at h

theorem reverseEndian_holding (word : List Byte) (h1 : 1 ≤ word.length)
    (h4 : word.length ≤ 4) :
    reverseEndian (WordArray.holding word) word.length =
      .ok (WordArray.holding (mirrored word)) := by
  rcases length_cases word h1 h4 with ⟨a, rfl⟩ | ⟨a, b, rfl⟩ | ⟨a, b, c, rfl⟩ | ⟨a, b, c, d, rfl⟩ <;>
    simp [reverseEndian, forLoop, reverseEndianBody, load, store, WordArray.holding,
      toUnsignedChar_toChar, mirrored, List.range_succ]

theorem littleEndianValue_lt (word : List Byte) :
    littleEndianValue word < 2 ^ (8 * word.length) := by
  induction word with
  | nil => simp [littleEndianValue]
  | cons b bs ih =>
    have hb := b.isLt
    have e : 2 ^ (8 * (b :: bs).length) = 256 * 2 ^ (8 * bs.length) := by
      rw [List.length_cons, Nat.mul_succ, Nat.pow_add]; omega
    rw [e, littleEndianValue]
    omega

theorem assemble_holding (word : List Byte) (h1 : 1 ≤ word.length) (h4 : word.length ≤ 4) :
    forLoop (assembleBody (WordArray.holding word)) word.length 0 0 =
      .ok (littleEndianValue word) := by
  rcases length_cases word h1 h4 with ⟨a, rfl⟩ | ⟨a, b, rfl⟩ | ⟨a, b, c, rfl⟩ | ⟨a, b, c, d, rfl⟩ <;>
    · simp [forLoop, assembleBody, load, shiftLeft32, WordArray.holding, littleEndianValue,
        Nat.shiftLeft_eq]
      omega

theorem length_mirrored (word : List Byte) : (mirrored word).length = word.length := by
  simp [mirrored]

theorem decodeWord_holding (word : List Byte) (h1 : 1 ≤ word.length) (h4 : word.length ≤ 4)
    (isLittleEndian : Bool) :
    (decodeWord (WordArray.holding word) word.length isLittleEndian).map toInt32 =
      .ok (sampleOf isLittleEndian word) := by
  cases isLittleEndian with
  | true =>
    simp only [decodeWord, Bool.not_true, Bool.false_eq_true, if_false]
    rw [assemble_holding word h1 h4]
    simp only []
    rw [dealWithSign_eq h1 h4 (littleEndianValue_lt word)]
    simp only [Except.map, sampleOf, if_true]
    rw [toInt32_dealWithSign h1 h4 (littleEndianValue_lt word)]
  | false =>
    have hl := length_mirrored word
    simp only [decodeWord, Bool.not_false, if_true]
    rw [reverseEndian_holding word h1 h4]
    simp only []
    have ha := assemble_holding (mirrored word) (by omega) (by omega)
    rw [hl] at ha
    rw [ha]
    simp only []
    have hlt := littleEndianValue_lt (mirrored word)
    rw [hl] at hlt
    rw [dealWithSign_eq h1 h4 hlt]
    simp only [Except.map, sampleOf, Bool.false_eq_true, if_false]
    rw [toInt32_dealWithSign h1 h4 hlt]

/-! ## One call of `readWord` -/

/-- With a complete word available, `readWord` consumes it and returns its sample. -/
theorem readWord_complete (f : FILE) (w : Nat) (e : Bool) (h1 : 1 ≤ w) (h4 : w ≤ 4)
    (hk : w ≤ f.rest.length) :
    readWord f w e =
      .ok (sampleOf e (f.rest.take w), { f with rest := f.rest.drop w }) := by
  have hlen : (f.rest.take w).length = w := by simp [hk]
  have hd := decodeWord_holding (f.rest.take w) (by omega) (by omega) e
  rw [hlen] at hd
  unfold readWord fread
  rw [if_neg (by omega), storeFrom_fresh _ (by omega)]
  simp only [hk, if_true]
  cases hdw : decodeWord (WordArray.holding (List.take w f.rest)) w e with
  | error x => rw [hdw] at hd; simp [Except.map] at hd
  | ok u =>
    rw [hdw] at hd
    simp only [Except.map, Except.ok.injEq] at hd
    simp only [hd]

/-- With fewer bytes than a word left, `readWord` returns 0 and leaves the stream at
its end with the end-of-file indicator set. -/
theorem readWord_short (f : FILE) (w : Nat) (e : Bool) (h4 : w ≤ 4)
    (hk : f.rest.length < w) :
    readWord f w e = .ok (0, { rest := [], eof := true }) := by
  unfold readWord fread
  rw [if_neg (by omega), storeFrom_fresh _ (by simp; omega)]
  simp only [Nat.not_le.mpr hk, if_false]
  simp [toInt32]

/-! ## Decoding of little-endian words -/

theorem littleEndianValue_eq_sum (word : List Byte) :
    littleEndianValue word =
      ∑ i ∈ Finset.range word.length, (word.getD i 0).val * 256 ^ i := by
  induction word with
  | nil => simp [littleEndianValue]
  | cons b bs ih =>
    rw [List.length_cons, Finset.sum_range_succ', littleEndianValue, ih, Finset.mul_sum]
    simp only [List.getD_cons_succ, List.getD_cons_zero, pow_zero, mul_one, pow_succ]
    rw [Nat.add_comm]
    congr 1
    apply Finset.sum_congr rfl
    intro i _
    ring

/-- C1: for a width `w` in 1..4 and a `w`-byte word `b` at the head of the stream,
`readWord` with `isLittleEndian = true` consumes the word and returns the two's-complement
signed value of the little-endian integer `u = Σ b[i] * 256 ^ i`: `u` when
`u < 2 ^ (8 * w - 1)` and `u - 2 ^ (8 * w)` otherwise.  In particular `[0x80]` gives
`-128`, `[0xFF, 0x7F]` gives `32767` and `[0x00, 0x80]` gives `-32768`. -/
theorem readWord_littleEndian_twosComplement (w : Nat) (b tail : List Byte) (eof : Bool)
    (h1 : 1 ≤ w) (h4 : w ≤ 4) (hb : b.length = w) :
    (readWord { rest := b ++ tail, eof := eof } w true =
        .ok (let u := ∑ i ∈ Finset.range w, (b.getD i 0).val * 256 ^ i
             if u < 2 ^ (8 * w - 1) then (u : Int) else (u : Int) - 2 ^ (8 * w),
             { rest := tail, eof := eof })) ∧
      readWord (FILE.opened [0x80]) 1 true = .ok (-128, FILE.opened []) ∧
      readWord (FILE.opened [0xFF, 0x7F]) 2 true = .ok (32767, FILE.opened []) ∧
      readWord (FILE.opened [0x00, 0x80]) 2 true = .ok (-32768, FILE.opened []) := by
  refine ⟨?_, by decide, by decide, by decide⟩
  subst hb
  rw [readWord_complete _ _ _ h1 h4 (by simp)]
  simp only [List.take_left', List.drop_left', sampleOf, if_true, twosComplement,
    littleEndianValue_eq_sum]

theorem readWord_littleEndian_twosComplement_witness :
    readWord { rest := [0x34, 0x92, 0x07], eof := false } 2 true =
      .ok (-28108, { rest := [0x07], eof := false }) :=
  (readWord_littleEndian_twosComplement 2 [0x34, 0x92] [0x07] false (by decide) (by decide)
    rfl).1

/-! ## The loop of `parse` -/

/-- One call of `readWord` on a consistent stream, for a width in 1..4: the sample is
`headSample`, the stream advances by one word or becomes exhausted, and afterwards the
indicator tested by `feof` tells whether the word was incomplete. -/
theorem readWord_step (f : FILE) (w : Nat) (e : Bool) (h1 : 1 ≤ w) (h4 : w ≤ 4)
    (hc : f.Consistent) :
    ∃ f1 : FILE, readWord f w e = .ok (headSample w e f.rest, f1) ∧
      f1.rest = f.rest.drop w ∧ f1.Consistent ∧ (f1.eof = true ↔ f.rest.length < w) := by
  by_cases hk : w ≤ f.rest.length
  · refine ⟨{ f with rest := f.rest.drop w }, ?_, rfl, ?_, ?_⟩
    · rw [readWord_complete f w e h1 h4 hk, headSample, if_pos hk]
    · intro h
      have := hc h
      rw [this] at hk
      simp at hk
      omega
    · constructor
      · intro h
        have := hc h
        rw [this] at hk
        simp at hk
        omega
      · intro h; omega
  · have hk1 : f.rest.length < w := Nat.lt_of_not_le hk
    refine ⟨FILE.exhausted, ?_, ?_, ?_, ?_⟩
    · rw [readWord_short f w e h4 hk1, headSample, if_neg hk]; rfl
    · simp [FILE.exhausted, List.drop_eq_nil_of_le (Nat.le_of_lt hk1)]
    · intro _; rfl
    · simp [FILE.exhausted, hk1]

theorem wrapInt32_add (a b : Int) : wrapInt32 (wrapInt32 a + b) = wrapInt32 (a + b) := by
  simp only [wrapInt32]
  omega

theorem div_drop (d : List Byte) (w : Nat) (h1 : 1 ≤ w) :
    (d.drop w).length / w = d.length / w - 1 := by
  rw [List.length_drop]
  by_cases h : w ≤ d.length
  · have e : d.length = (d.length - w) + w := by omega
    conv_rhs => rw [e, Nat.add_div_right _ (by omega)]
    simp
  · have h0 : d.length / w = 0 := Nat.div_eq_of_lt (by omega)
    have h2 : d.length - w = 0 := by omega
    rw [h0, h2]
    simp

theorem lt_iff_div_eq_zero {a w : Nat} (h1 : 1 ≤ w) : a < w ↔ a / w = 0 := by
  constructor
  · exact Nat.div_eq_of_lt
  · intro h
    by_contra hge
    have := Nat.div_pos (Nat.le_of_not_lt hge) (by omega)
    omega

theorem FILE.eq_exhausted (f : FILE) (hc : f.Consistent) (he : f.eof = true) :
    f = FILE.exhausted := by
  cases f with
  | mk rest eof =>
    have := hc he
    simp only at this he
    simp [FILE.exhausted, this, he]

theorem wrapInt32_of_range {v : Int} (hlo : -2 ^ 31 ≤ v) (hhi : v < 2 ^ 31) :
    wrapInt32 v = v := by
  simp only [wrapInt32]
  omega

theorem wrapInt32_range (v : Int) : -2 ^ 31 ≤ wrapInt32 v ∧ wrapInt32 v < 2 ^ 31 := by
  simp only [wrapInt32]
  omega

/-- The loop of `parse` from any consistent pair of streams, for widths in 1..4: with
`n` the larger of the two numbers of complete words left, any budget above `n`
suffices, `n` frames are appended and the counter advances by `n`. -/
theorem parseLoop_eq (host : Bool) (wL : Nat) (eL : Bool) (wR : Nat) (eR : Bool)
    (hL1 : 1 ≤ wL) (hL4 : wL ≤ 4) (hR1 : 1 ≤ wR) (hR4 : wR ≤ 4) :
    ∀ (n fuel : Nat) (fL fR : FILE) (out : List Byte) (items : Int),
      fL.Consistent → fR.Consistent → -2 ^ 31 ≤ items → items < 2 ^ 31 →
      max (fL.rest.length / wL) (fR.rest.length / wR) = n → n < fuel →
      parseLoop host wL eL wR eR fuel fL fR out items =
        .ok { itemsWritten := wrapInt32 (items + n),
              inputLeft := FILE.exhausted, inputRight := FILE.exhausted,
              output := out ++ framesFrom host wL eL wR eR n fL.rest fR.rest } := by
  intro n
  induction n with
  | zero =>
    intro fuel fL fR out items hcL hcR hlo hhi hmax hfuel
    obtain ⟨fuel, rfl⟩ : ∃ k, fuel = k + 1 := ⟨fuel - 1, by omega⟩
    obtain ⟨fL1, hrL, -, hcL1, heL⟩ := readWord_step fL wL eL hL1 hL4 hcL
    obtain ⟨fR1, hrR, -, hcR1, heR⟩ := readWord_step fR wR eR hR1 hR4 hcR
    have hl : fL.rest.length / wL = 0 := by
      generalize fL.rest.length / wL = a at hmax
      generalize fR.rest.length / wR = b at hmax
      omega
    have hr : fR.rest.length / wR = 0 := by
      generalize fL.rest.length / wL = a at hmax
      generalize fR.rest.length / wR = b at hmax
      omega
    have e1 : fL1.eof = true := heL.mpr ((lt_iff_div_eq_zero hL1).mpr hl)
    have e2 : fR1.eof = true := heR.mpr ((lt_iff_div_eq_zero hR1).mpr hr)
    simp only [parseLoop, hrL, hrR, feof, e1, e2, Bool.and_self, if_true]
    rw [FILE.eq_exhausted fL1 hcL1 e1, FILE.eq_exhausted fR1 hcR1 e2]
    simp [framesFrom, wrapInt32_of_range hlo hhi]
  | succ n ih =>
    intro fuel fL fR out items hcL hcR hlo hhi hmax hfuel
    obtain ⟨fuel, rfl⟩ : ∃ k, fuel = k + 1 := ⟨fuel - 1, by omega⟩
    obtain ⟨fL1, hrL, hdL, hcL1, heL⟩ := readWord_step fL wL eL hL1 hL4 hcL
    obtain ⟨fR1, hrR, hdR, hcR1, heR⟩ := readWord_step fR wR eR hR1 hR4 hcR
    have hnot : ¬ (fL1.eof = true ∧ fR1.eof = true) := by
      rw [heL, heR, lt_iff_div_eq_zero hL1, lt_iff_div_eq_zero hR1]
      generalize fL.rest.length / wL = a at hmax
      generalize fR.rest.length / wR = b at hmax
      omega
    have hcond : (fL1.eof && fR1.eof) = false := by
      cases h1 : fL1.eof <;> cases h2 : fR1.eof <;> simp_all
    have hmax1 : max (fL1.rest.length / wL) (fR1.rest.length / wR) = n := by
      rw [hdL, hdR, div_drop _ _ hL1, div_drop _ _ hR1]
      generalize fL.rest.length / wL = a at hmax
      generalize fR.rest.length / wR = b at hmax
      omega
    have hw := wrapInt32_range (items + 1)
    simp only [parseLoop, hrL, hrR, feof, hcond, Bool.false_eq_true, if_false]
    rw [ih fuel fL1 fR1 _ _ hcL1 hcR1 hw.1 hw.2 hmax1 (by omega)]
    rw [hdL, hdR, wrapInt32_add]
    have harith : items + 1 + (n : Int) = items + ((n + 1 : Nat) : Int) := by
      push_cast; ring
    rw [harith]
    simp only [framesFrom, fwrite, List.append_assoc]

theorem length_intBytes (host : Bool) (v : Int) : (intBytes host v).length = 4 := by
  cases host <;> simp [intBytes]

theorem length_framesFrom (host : Bool) (wL : Nat) (eL : Bool) (wR : Nat) (eR : Bool) :
    ∀ (n : Nat) (dL dR : List Byte), (framesFrom host wL eL wR eR n dL dR).length = 8 * n := by
  intro n
  induction n with
  | zero => intro dL dR; simp [framesFrom]
  | succ n ih =>
    intro dL dR
    simp only [framesFrom, List.length_append, length_intBytes, ih]
    omega

theorem consistent_opened (data : List Byte) : (FILE.opened data).Consistent := by
  intro h
  simp [FILE.opened] at h

/-- The whole of `parse` on freshly opened inputs, for widths in 1..4. -/
theorem parse_eq (fuel : Nat) (host : Bool) (dataL : List Byte) (wL : Nat) (eL : Bool)
    (dataR : List Byte) (wR : Nat) (eR : Bool) (out : List Byte)
    (hL1 : 1 ≤ wL) (hL4 : wL ≤ 4) (hR1 : 1 ≤ wR) (hR4 : wR ≤ 4)
    (hfuel : max (dataL.length / wL) (dataR.length / wR) < fuel) :
    parse fuel host (FILE.opened dataL) wL eL (FILE.opened dataR) wR eR out =
      .ok { itemsWritten := wrapInt32 (max (dataL.length / wL) (dataR.length / wR) : Nat),
            inputLeft := FILE.exhausted, inputRight := FILE.exhausted,
            output := out ++ framesFrom host wL eL wR eR
              (max (dataL.length / wL) (dataR.length / wR)) dataL dataR } := by
  unfold parse
  rw [parseLoop_eq host wL eL wR eR hL1 hL4 hR1 hR4 _ fuel _ _ out 0
    (consistent_opened dataL) (consistent_opened dataR) (by norm_num) (by norm_num) rfl hfuel]
  simp [FILE.opened]

/-! ## Number of frames -/

/-- C4 (amended): for input streams of `lenL` and `lenR` bytes, widths in 1..4 and
any byte orders, `parse` terminates within `max (lenL / wL) (lenR / wR) + 1`
iterations, appends exactly `max (lenL / wL) (lenR / wR)` frames of 8 bytes to the
output, and returns that number whenever it is below `2 ^ 31`, the range of the `int`
it counts in. -/
theorem parse_frame_count (fuel : Nat) (host : Bool) (dataL : List Byte) (wL : Nat)
    (eL : Bool) (dataR : List Byte) (wR : Nat) (eR : Bool) (out : List Byte)
    (hL1 : 1 ≤ wL) (hL4 : wL ≤ 4) (hR1 : 1 ≤ wR) (hR4 : wR ≤ 4)
    (hfuel : max (dataL.length / wL) (dataR.length / wR) < fuel) :
    ∃ r : ParseResult,
      parse fuel host (FILE.opened dataL) wL eL (FILE.opened dataR) wR eR out = .ok r ∧
      out <+: r.output ∧
      r.output.length = out.length + 8 * max (dataL.length / wL) (dataR.length / wR) ∧
      (max (dataL.length / wL) (dataR.length / wR) < 2 ^ 31 →
        r.itemsWritten = (max (dataL.length / wL) (dataR.length / wR) : Nat)) := by
  refine ⟨_, parse_eq fuel host dataL wL eL dataR wR eR out hL1 hL4 hR1 hR4 hfuel, ?_, ?_, ?_⟩
  · exact List.prefix_append _ _
  · simp [length_framesFrom]
  · intro hlt
    apply wrapInt32_of_range
    · have : (0 : Int) ≤ (max (dataL.length / wL) (dataR.length / wR) : Nat) :=
        Int.ofNat_nonneg _
      omega
    · exact_mod_cast hlt

theorem parse_frame_count_witness :
    ∃ r : ParseResult,
      parse 6 true (FILE.opened [1, 2, 3, 4, 5, 6, 7, 8, 9, 10]) 2 true
          (FILE.opened [11, 12, 13, 14, 15, 16]) 2 true [] = .ok r ∧
      [] <+: r.output ∧
      r.output.length = 0 + 8 * 5 ∧
      (5 < 2 ^ 31 → r.itemsWritten = 5) :=
  parse_frame_count 6 true [1, 2, 3, 4, 5, 6, 7, 8, 9, 10] 2 true
    [11, 12, 13, 14, 15, 16] 2 true [] (by decide) (by decide) (by decide) (by decide)
    (by decide)

/-- C4 (as stated, refuted): a left stream of `2 ^ 31` one-byte words against an empty
right stream makes `parse` write `2 ^ 31` frames, and the `int` it returns is
`-2 ^ 31`, not the number of frames. -/
theorem parse_return_not_frame_count :
    ∃ r : ParseResult,
      parse 2147483649 true (FILE.opened (List.replicate 2147483648 0)) 1 true
          (FILE.opened []) 1 true [] = .ok r ∧
      r.output.length = 8 * 2147483648 ∧
      r.itemsWritten = -2147483648 ∧
      r.itemsWritten ≠
        ((max ((List.replicate 2147483648 (0 : Byte)).length / 1)
            (([] : List Byte).length / 1) : Nat) : Int) := by
  have hlen : max ((List.replicate 2147483648 (0 : Byte)).length / 1)
      (([] : List Byte).length / 1) = 2147483648 := by
    rw [List.length_replicate]; rfl
  have h := parse_eq 2147483649 true (List.replicate 2147483648 0) 1 true [] 1 true []
    (Nat.le_refl 1) (by decide) (Nat.le_refl 1) (by decide) (by rw [hlen]; decide)
  rw [hlen] at h
  refine ⟨_, h, ?_, ?_, ?_⟩
  · rw [List.nil_append, length_framesFrom]
  · show wrapInt32 ((2147483648 : Nat) : Int) = -2147483648
    decide
  · rw [hlen]
    show wrapInt32 ((2147483648 : Nat) : Int) ≠ ((2147483648 : Nat) : Int)
    decide

/-! ## Content of the frames -/

theorem framesFrom_slice (host : Bool) (wL : Nat) (eL : Bool) (wR : Nat) (eR : Bool) :
    ∀ (n i : Nat) (dL dR : List Byte), i < n →
      ((framesFrom host wL eL wR eR n dL dR).drop (8 * i)).take 8 =
        intBytes host (headSample wL eL (dL.drop (i * wL))) ++
          intBytes host (headSample wR eR (dR.drop (i * wR))) := by
  intro n
  induction n with
  | zero => intro i dL dR h; omega
  | succ n ih =>
    intro i dL dR h
    have hlen : (intBytes host (headSample wL eL dL) ++
        intBytes host (headSample wR eR dR)).length = 8 := by
      simp [length_intBytes]
    cases i with
    | zero =>
      simp only [framesFrom, Nat.mul_zero, List.drop_zero, Nat.zero_mul]
      rw [List.take_append_of_le_length (by omega), List.take_of_length_le (by omega)]
    | succ i =>
      have e8 : 8 * (i + 1) = (intBytes host (headSample wL eL dL) ++
          intBytes host (headSample wR eR dR)).length + 8 * i := by omega
      simp only [framesFrom]
      rw [e8, List.drop_append, ih i _ _ (by omega), List.drop_drop, List.drop_drop]
      have e1 : i * wL + wL = (i + 1) * wL := by ring
      have e2 : i * wR + wR = (i + 1) * wR := by ring
      have e3 : wL + i * wL = (i + 1) * wL := by ring
      have e4 : wR + i * wR = (i + 1) * wR := by ring
      simp only [e1, e2, e3, e4]

/-- The sample `readWord` returns for word `i` of a channel holding more than `i`
complete words. -/
theorem readWord_at (data : List Byte) (w : Nat) (e : Bool) (i : Nat) (h1 : 1 ≤ w)
    (h4 : w ≤ 4) (hi : i < data.length / w) :
    ∃ s : FILE, readWord { rest := data.drop (i * w), eof := false } w e =
      .ok (headSample w e (data.drop (i * w)), s) := by
  have hle : (i + 1) * w ≤ data.length :=
    Nat.le_trans (Nat.mul_le_mul_right w hi) (Nat.div_mul_le_self _ _)
  have hk : w ≤ (data.drop (i * w)).length := by
    rw [List.length_drop]
    have : (i + 1) * w = i * w + w := by ring
    omega
  have hr := readWord_complete { rest := data.drop (i * w), eof := false } w e h1 h4 hk
  exact ⟨_, by rw [hr, headSample, if_pos hk]⟩

/-- Beyond the last complete word of a channel the sample is 0. -/
theorem headSample_beyond (data : List Byte) (w : Nat) (e : Bool) (i : Nat) (h1 : 1 ≤ w)
    (hi : data.length / w ≤ i) : headSample w e (data.drop (i * w)) = 0 := by
  have hlt : data.length < (i + 1) * w := by
    have := Nat.lt_succ_of_le hi
    exact (Nat.div_lt_iff_lt_mul (by omega)).mp this
  have hk : ¬ w ≤ (data.drop (i * w)).length := by
    rw [List.length_drop]
    have : (i + 1) * w = i * w + w := by ring
    omega
  rw [headSample, if_neg hk]

/-- C5 (amended): for widths in 1..4 the output of `parse` is the previous content
followed by `max (lenL / wL) (lenR / wR)` frames of 8 bytes, which is 8 times the
value returned whenever that number is below `2 ^ 31`; and for every
`i < min (lenL / wL) (lenR / wR)` frame `i` is the 4-byte sample `readWord` returns for
the word at offset `i * wL` of the left stream followed by the 4-byte sample it returns
for the word at offset `i * wR` of the right stream. -/
theorem parse_frames_of_both_channels (fuel : Nat) (host : Bool) (dataL : List Byte)
    (wL : Nat) (eL : Bool) (dataR : List Byte) (wR : Nat) (eR : Bool) (out : List Byte)
    (hL1 : 1 ≤ wL) (hL4 : wL ≤ 4) (hR1 : 1 ≤ wR) (hR4 : wR ≤ 4)
    (hfuel : max (dataL.length / wL) (dataR.length / wR) < fuel) :
    ∃ r : ParseResult,
      parse fuel host (FILE.opened dataL) wL eL (FILE.opened dataR) wR eR out = .ok r ∧
      r.output.take out.length = out ∧
      r.output.length = out.length + 8 * max (dataL.length / wL) (dataR.length / wR) ∧
      (max (dataL.length / wL) (dataR.length / wR) < 2 ^ 31 →
        (r.output.length : Int) = out.length + 8 * r.itemsWritten) ∧
      ∀ i : Nat, i < min (dataL.length / wL) (dataR.length / wR) →
        ∃ (vL : Int) (sL : FILE) (vR : Int) (sR : FILE),
          readWord { rest := dataL.drop (i * wL), eof := false } wL eL = .ok (vL, sL) ∧
          readWord { rest := dataR.drop (i * wR), eof := false } wR eR = .ok (vR, sR) ∧
          (intBytes host vL).length = 4 ∧ (intBytes host vR).length = 4 ∧
          (r.output.drop (out.length + 8 * i)).take 8 =
            intBytes host vL ++ intBytes host vR := by
  refine ⟨_, parse_eq fuel host dataL wL eL dataR wR eR out hL1 hL4 hR1 hR4 hfuel,
    ?_, ?_, ?_, ?_⟩
  · simp
  · simp [length_framesFrom]
  · intro hlt
    have hnn : (0 : Int) ≤ (max (dataL.length / wL) (dataR.length / wR) : Nat) :=
      Int.ofNat_nonneg _
    have hw : wrapInt32 (max (dataL.length / wL) (dataR.length / wR) : Nat) =
        (max (dataL.length / wL) (dataR.length / wR) : Nat) :=
      wrapInt32_of_range (by omega) (by exact_mod_cast hlt)
    simp only [hw, List.length_append, length_framesFrom]
    push_cast
    ring
  · intro i hi
    obtain ⟨sL, hrL⟩ := readWord_at dataL wL eL i hL1 hL4 (by omega)
    obtain ⟨sR, hrR⟩ := readWord_at dataR wR eR i hR1 hR4 (by omega)
    refine ⟨_, sL, _, sR, hrL, hrR, length_intBytes _ _, length_intBytes _ _, ?_⟩
    simp only [List.drop_append]
    exact framesFrom_slice host wL eL wR eR _ i dataL dataR (by omega)

theorem parse_frames_of_both_channels_witness :
    ∃ r : ParseResult,
      parse 4 true (FILE.opened [0x01, 0x02, 0xFF, 0x7F]) 2 true
          (FILE.opened [0x80, 0x10, 0x00]) 1 false [0xAA] = .ok r ∧
      r.output.take 1 = [0xAA] ∧
      r.output.length = 1 + 8 * 3 ∧
      (3 < 2 ^ 31 → (r.output.length : Int) = (1 : Nat) + 8 * r.itemsWritten) ∧
      ∀ i : Nat, i < 2 →
        ∃ (vL : Int) (sL : FILE) (vR : Int) (sR : FILE),
          readWord { rest := [0x01, 0x02, 0xFF, 0x7F].drop (i * 2), eof := false } 2 true =
            .ok (vL, sL) ∧
          readWord { rest := [0x80, 0x10, 0x00].drop (i * 1), eof := false } 1 false =
            .ok (vR, sR) ∧
          (intBytes true vL).length = 4 ∧ (intBytes true vR).length = 4 ∧
          (r.output.drop (1 + 8 * i)).take 8 = intBytes true vL ++ intBytes true vR :=
  parse_frames_of_both_channels 4 true [0x01, 0x02, 0xFF, 0x7F] 2 true [0x80, 0x10, 0x00] 1
    false [0xAA] (by decide) (by decide) (by decide) (by decide) (by decide)

/-- C5 (as stated, refuted): with an empty left stream and `2 ^ 31` one-byte words on
the right, the output holds `8 * 2 ^ 31` bytes, which is not 8 times the value
returned. -/
theorem parse_output_length_not_eight_times_return :
    ∃ r : ParseResult,
      parse 2147483649 false (FILE.opened []) 2 false
          (FILE.opened (List.replicate 2147483648 255)) 1 true [] = .ok r ∧
      (r.output.length : Int) ≠ 8 * r.itemsWritten := by
  have hlen : max (([] : List Byte).length / 2)
      ((List.replicate 2147483648 (255 : Byte)).length / 1) = 2147483648 := by
    rw [List.length_replicate]; rfl
  have h := parse_eq 2147483649 false [] 2 false (List.replicate 2147483648 255) 1 true []
    (by decide) (by decide) (Nat.le_refl 1) (by decide) (by rw [hlen]; decide)
  rw [hlen] at h
  refine ⟨_, h, ?_⟩
  rw [List.nil_append, length_framesFrom]
  show ((8 * 2147483648 : Nat) : Int) ≠ 8 * wrapInt32 ((2147483648 : Nat) : Int)
  decide

/-! ## Exhaustion of a channel -/

/-- C6: for a width `w` in 1..4 and a stream with `k` bytes remaining, if `k < w`
(`k = 0` included) the call sets the end-of-file indicator and `readWord` returns 0; if
`k ≥ w` the end-of-file indicator stays clear and exactly the first `w` bytes are
consumed. -/
theorem readWord_exhaustion (f : FILE) (w : Nat) (e : Bool) (h1 : 1 ≤ w) (h4 : w ≤ 4)
    (hc : f.Consistent) :
    (f.rest.length < w →
      ∃ s : FILE, readWord f w e = .ok (0, s) ∧ feof s = true) ∧
    (w ≤ f.rest.length →
      ∃ (v : Int) (s : FILE), readWord f w e = .ok (v, s) ∧ feof s = false ∧
        f.rest = f.rest.take w ++ s.rest ∧ (f.rest.take w).length = w) := by
  constructor
  · intro hk
    exact ⟨_, readWord_short f w e h4 hk, rfl⟩
  · intro hk
    refine ⟨_, _, readWord_complete f w e h1 h4 hk, ?_, ?_, ?_⟩
    · cases he : f.eof with
      | false => simp [feof, he]
      | true =>
        have := hc he
        rw [this] at hk
        simp at hk
        omega
    · simp
    · simp [hk]

theorem readWord_exhaustion_witness :
    ((FILE.opened [0x12, 0x34, 0x56]).rest.length < 2 →
      ∃ s : FILE, readWord (FILE.opened [0x12, 0x34, 0x56]) 2 true = .ok (0, s) ∧
        feof s = true) ∧
    (2 ≤ (FILE.opened [0x12, 0x34, 0x56]).rest.length →
      ∃ (v : Int) (s : FILE), readWord (FILE.opened [0x12, 0x34, 0x56]) 2 true = .ok (v, s) ∧
        feof s = false ∧
        (FILE.opened [0x12, 0x34, 0x56]).rest =
          (FILE.opened [0x12, 0x34, 0x56]).rest.take 2 ++ s.rest ∧
        ((FILE.opened [0x12, 0x34, 0x56]).rest.take 2).length = 2) :=
  readWord_exhaustion (FILE.opened [0x12, 0x34, 0x56]) 2 true (by decide) (by decide)
    (consistent_opened _)

/-! ## Frames past the end of the shorter channel -/

/-- C7: with `nL = lenL / wL` and `nR = lenR / wR` complete words and widths in 1..4,
every frame `i` with `min nL nR ≤ i < max nL nR` holds the sample `readWord` returns for
word `i` of the longer channel in that channel's slot and the sample 0 in the slot of
the exhausted channel. -/
theorem parse_frames_past_shorter_channel (fuel : Nat) (host : Bool) (dataL : List Byte)
    (wL : Nat) (eL : Bool) (dataR : List Byte) (wR : Nat) (eR : Bool) (out : List Byte)
    (hL1 : 1 ≤ wL) (hL4 : wL ≤ 4) (hR1 : 1 ≤ wR) (hR4 : wR ≤ 4)
    (hfuel : max (dataL.length / wL) (dataR.length / wR) < fuel) :
    ∃ r : ParseResult,
      parse fuel host (FILE.opened dataL) wL eL (FILE.opened dataR) wR eR out = .ok r ∧
      ∀ i : Nat, min (dataL.length / wL) (dataR.length / wR) ≤ i →
        i < max (dataL.length / wL) (dataR.length / wR) →
        (dataR.length / wR < dataL.length / wL →
          ∃ (vL : Int) (sL : FILE),
            readWord { rest := dataL.drop (i * wL), eof := false } wL eL = .ok (vL, sL) ∧
            (r.output.drop (out.length + 8 * i)).take 8 =
              intBytes host vL ++ intBytes host 0) ∧
        (dataL.length / wL < dataR.length / wR →
          ∃ (vR : Int) (sR : FILE),
            readWord { rest := dataR.drop (i * wR), eof := false } wR eR = .ok (vR, sR) ∧
            (r.output.drop (out.length + 8 * i)).take 8 =
              intBytes host 0 ++ intBytes host vR) := by
  refine ⟨_, parse_eq fuel host dataL wL eL dataR wR eR out hL1 hL4 hR1 hR4 hfuel, ?_⟩
  intro i hmin hmax
  have hslice := framesFrom_slice host wL eL wR eR _ i dataL dataR hmax
  constructor
  · intro hlt
    obtain ⟨sL, hrL⟩ := readWord_at dataL wL eL i hL1 hL4 (by omega)
    refine ⟨_, sL, hrL, ?_⟩
    simp only [List.drop_append]
    rw [hslice, headSample_beyond dataR wR eR i hR1 (by omega)]
  · intro hlt
    obtain ⟨sR, hrR⟩ := readWord_at dataR wR eR i hR1 hR4 (by omega)
    refine ⟨_, sR, hrR, ?_⟩
    simp only [List.drop_append]
    rw [hslice, headSample_beyond dataL wL eL i hL1 (by omega)]

theorem parse_frames_past_shorter_channel_witness :
    ∃ r : ParseResult,
      parse 4 true (FILE.opened [0x01, 0x80, 0x7F]) 1 true (FILE.opened [0x05, 0x06, 0x07])
          2 false [] = .ok r ∧
      ∀ i : Nat, min 3 1 ≤ i → i < max 3 1 →
        (1 < 3 →
          ∃ (vL : Int) (sL : FILE),
            readWord { rest := [0x01, 0x80, 0x7F].drop (i * 1), eof := false } 1 true =
              .ok (vL, sL) ∧
            (r.output.drop (0 + 8 * i)).take 8 = intBytes true vL ++ intBytes true 0) ∧
        (3 < 1 →
          ∃ (vR : Int) (sR : FILE),
            readWord { rest := [0x05, 0x06, 0x07].drop (i * 2), eof := false } 2 false =
              .ok (vR, sR) ∧
            (r.output.drop (0 + 8 * i)).take 8 = intBytes true 0 ++ intBytes true vR) :=
  parse_frames_past_shorter_channel 4 true [0x01, 0x80, 0x7F] 1 true [0x05, 0x06, 0x07] 2
    false [] (by decide) (by decide) (by decide) (by decide) (by decide)

/-! ## Empty inputs -/

/-- C8: if both input streams are empty then, for widths in 1..4 and any endiannesses,
`parse` finishes in its first iteration, writes nothing to the output and returns 0. -/
theorem parse_empty_inputs (fuel : Nat) (host : Bool) (wL : Nat) (eL : Bool) (wR : Nat)
    (eR : Bool) (out : List Byte) (hL1 : 1 ≤ wL) (hL4 : wL ≤ 4) (hR1 : 1 ≤ wR)
    (hR4 : wR ≤ 4) (hfuel : 1 ≤ fuel) :
    ∃ r : ParseResult,
      parse fuel host (FILE.opened []) wL eL (FILE.opened []) wR eR out = .ok r ∧
      r.output = out ∧ r.itemsWritten = 0 := by
  have h := parse_eq fuel host [] wL eL [] wR eR out hL1 hL4 hR1 hR4 (by simp; omega)
  refine ⟨_, h, ?_, ?_⟩
  · simp [framesFrom]
  · simp [wrapInt32]

theorem parse_empty_inputs_witness :
    ∃ r : ParseResult,
      parse 1 false (FILE.opened []) 3 true (FILE.opened []) 4 false [] = .ok r ∧
      r.output = [] ∧ r.itemsWritten = 0 :=
  parse_empty_inputs 1 false 3 true 4 false [] (by decide) (by decide) (by decide)
    (by decide) (by decide)

/-! ## Big-endian words -/

/-- C2 (the code at the failing input): decoding `[0x02, 0x01]` as a big-endian 2-byte
word yields `0x0202`, while decoding the byte-reversed word `[0x01, 0x02]` as
little-endian yields `0x0201`. -/
theorem readWord_bigEndian_differs_from_reversed :
    readWord (FILE.opened [0x02, 0x01]) 2 false = .ok (0x0202, FILE.opened []) ∧
      readWord (FILE.opened ([0x02, 0x01] : List Byte).reverse) 2 true =
        .ok (0x0201, FILE.opened []) := by
  decide

/-- C3 (the code at the failing input): the big-endian 2-byte word `[0x02, 0x01]` is
decoded to `0x0202`, whose encoding as a big-endian 2-byte word is `[0x02, 0x02]`, not
the word that was read. -/
theorem readWord_bigEndian_roundTrip_fails :
    readWord (FILE.opened [0x02, 0x01]) 2 false = .ok (0x0202, FILE.opened []) ∧
      encodeSample 2 false 0x0202 = [0x02, 0x02] ∧
      encodeSample 2 false 0x0202 ≠ [0x02, 0x01] := by
  decide

/-- The round trip holds for little-endian words of every width in 1..4. -/
theorem readWord_littleEndian_roundTrip (w : Nat) (b tail : List Byte) (eof : Bool)
    (h1 : 1 ≤ w) (h4 : w ≤ 4) (hb : b.length = w) :
    ∃ (v : Int) (s : FILE), readWord { rest := b ++ tail, eof := eof } w true = .ok (v, s) ∧
      encodeSample w true v = b := by
  subst hb
  refine ⟨_, _, readWord_complete _ _ _ h1 h4 (by simp), ?_⟩
  simp only [List.take_left']
  rcases length_cases b h1 h4 with ⟨x, rfl⟩ | ⟨x, y, rfl⟩ | ⟨x, y, z, rfl⟩ | ⟨x, y, z, t, rfl⟩ <;>
    · simp only [encodeSample, sampleOf, twosComplement, littleEndianValue, byteOf,
        List.range_succ, List.range_zero, List.length_cons, List.length_nil, if_true,
        List.map_append, List.map_cons, List.map_nil, List.nil_append, List.cons_append,
        List.cons.injEq, and_true, Fin.ext_iff]
      have := x.isLt
      try have := y.isLt
      try have := z.isLt
      try have := t.isLt
      norm_num
      split_ifs <;> omega

/-! ## The call of `parse` in `main` -/

theorem readWord_zero_width (f : FILE) (e : Bool) : readWord f 0 e = .ok (0, f) := by
  simp [readWord, fread, toInt32]

/-- With a word width of 0 on the right channel, whose end-of-file indicator is then
never set, the loop of `parse` exhausts every budget. -/
theorem parseLoop_zero_width_right (host : Bool) (wL : Nat) (eL eR : Bool) (hL1 : 1 ≤ wL)
    (hL4 : wL ≤ 4) :
    ∀ (fuel : Nat) (fL fR : FILE) (out : List Byte) (items : Int),
      fL.Consistent → fR.eof = false →
      parseLoop host wL eL 0 eR fuel fL fR out items = .error .outOfFuel := by
  intro fuel
  induction fuel with
  | zero => intro fL fR out items _ _; rfl
  | succ fuel ih =>
    intro fL fR out items hc he
    obtain ⟨fL1, hrL, -, hcL1, -⟩ := readWord_step fL wL eL hL1 hL4 hc
    simp only [parseLoop, hrL, readWord_zero_width, feof, he, Bool.and_false,
      Bool.false_eq_true, if_false]
    exact ih fL1 fR _ _ hcL1 he

/-- C9 (the code at the failing input): for the command line of the usage text,
`afile l 4 anotherfile b 2 out`, with all three files opened, `main` calls `parse` with
word width 1 and `isLittleEndian = true` for the left channel and word width 0 and
`isLittleEndian = true` for the right channel; that call never finishes. -/
theorem main_usage_example_call :
    mainDecision ["audio_file_compare", "afile", "l", "4", "anotherfile", "b", "2", "out"]
        exampleFiles =
      (true, some
        { pInputFileLeft := some (FILE.opened [0x01, 0x02, 0x03, 0x04, 0x05, 0x06, 0x07, 0x08])
          wordWidthLeft := 1
          isLittleEndianLeft := true
          pInputFileRight := some (FILE.opened [0x11, 0x12, 0x13, 0x14])
          wordWidthRight := 0
          isLittleEndianRight := true
          pOutputFile := some [] }) ∧
      ∀ (fuel : Nat) (host : Bool),
        main fuel host
            ["audio_file_compare", "afile", "l", "4", "anotherfile", "b", "2", "out"]
            exampleFiles = .error .outOfFuel := by
  have hd : mainDecision
      ["audio_file_compare", "afile", "l", "4", "anotherfile", "b", "2", "out"]
      exampleFiles =
      (true, some
        { pInputFileLeft := some (FILE.opened [0x01, 0x02, 0x03, 0x04, 0x05, 0x06, 0x07, 0x08])
          wordWidthLeft := 1
          isLittleEndianLeft := true
          pInputFileRight := some (FILE.opened [0x11, 0x12, 0x13, 0x14])
          wordWidthRight := 0
          isLittleEndianRight := true
          pOutputFile := some [] }) := by
    decide
  refine ⟨hd, ?_⟩
  intro fuel host
  simp only [main, hd, parse]
  rw [parseLoop_zero_width_right host 1 true true (by decide) (by decide) fuel _ _ _ _
    (consistent_opened _) rfl]

/-- C10 (the code at the failing input): for `afile l 5 anotherfile l 2 out`, whose left
word width 5 is outside 1..4, `main` calls `parse` and returns 0. -/
theorem main_accepts_width_five :
    main 9 true ["audio_file_compare", "afile", "l", "5", "anotherfile", "l", "2", "out"]
        exampleFiles =
      .ok { retValue := 0
            call := some
              { pInputFileLeft :=
                  some (FILE.opened [0x01, 0x02, 0x03, 0x04, 0x05, 0x06, 0x07, 0x08])
                wordWidthLeft := 1
                isLittleEndianLeft := true
                pInputFileRight := some (FILE.opened [0x11, 0x12, 0x13, 0x14])
                wordWidthRight := 1
                isLittleEndianRight := true
                pOutputFile := some [] }
            output := some
              ([0x01, 0, 0, 0, 0x11, 0, 0, 0, 0x02, 0, 0, 0, 0x12, 0, 0, 0,
                0x03, 0, 0, 0, 0x13, 0, 0, 0, 0x04, 0, 0, 0, 0x14, 0, 0, 0,
                0x05, 0, 0, 0, 0, 0, 0, 0, 0x06, 0, 0, 0, 0, 0, 0, 0,
                0x07, 0, 0, 0, 0, 0, 0, 0, 0x08, 0, 0, 0, 0, 0, 0, 0]) } := by
  decide

/-- C11 (the code at the failing input): for `afile little 4 anotherfile l 2 out`, whose
left endianness argument is not the one-character string `l` or `b`, `main` calls
`parse` and returns 0; and for `afile x 4 anotherfile l 2 out` the decision of `main` is
also to call `parse`. -/
theorem main_accepts_bad_endianness :
    main 9 true ["audio_file_compare", "afile", "little", "4", "anotherfile", "l", "2", "out"]
        exampleFiles =
      .ok { retValue := 0
            call := some
              { pInputFileLeft :=
                  some (FILE.opened [0x01, 0x02, 0x03, 0x04, 0x05, 0x06, 0x07, 0x08])
                wordWidthLeft := 1
                isLittleEndianLeft := true
                pInputFileRight := some (FILE.opened [0x11, 0x12, 0x13, 0x14])
                wordWidthRight := 1
                isLittleEndianRight := true
                pOutputFile := some [] }
            output := some
              ([0x01, 0, 0, 0, 0x11, 0, 0, 0, 0x02, 0, 0, 0, 0x12, 0, 0, 0,
                0x03, 0, 0, 0, 0x13, 0, 0, 0, 0x04, 0, 0, 0, 0x14, 0, 0, 0,
                0x05, 0, 0, 0, 0, 0, 0, 0, 0x06, 0, 0, 0, 0, 0, 0, 0,
                0x07, 0, 0, 0, 0, 0, 0, 0, 0x08, 0, 0, 0, 0, 0, 0, 0]) } ∧
      mainDecision ["audio_file_compare", "afile", "x", "4", "anotherfile", "l", "2", "out"]
          exampleFiles =
        (true, some
          { pInputFileLeft :=
              some (FILE.opened [0x01, 0x02, 0x03, 0x04, 0x05, 0x06, 0x07, 0x08])
            wordWidthLeft := 0
            isLittleEndianLeft := true
            pInputFileRight := some (FILE.opened [0x11, 0x12, 0x13, 0x14])
            wordWidthRight := 1
            isLittleEndianRight := true
            pOutputFile := some [] }) := by
  decide

/-! ## Termination of the read loop -/

/-- A budget that does not exceed the larger number of complete words is used up before
the loop of `parse` ends. -/
theorem parseLoop_outOfFuel (host : Bool) (wL : Nat) (eL : Bool) (wR : Nat) (eR : Bool)
    (hL1 : 1 ≤ wL) (hL4 : wL ≤ 4) (hR1 : 1 ≤ wR) (hR4 : wR ≤ 4) :
    ∀ (fuel : Nat) (fL fR : FILE) (out : List Byte) (items : Int),
      fL.Consistent → fR.Consistent →
      fuel ≤ max (fL.rest.length / wL) (fR.rest.length / wR) →
      parseLoop host wL eL wR eR fuel fL fR out items = .error .outOfFuel := by
  intro fuel
  induction fuel with
  | zero => intro fL fR out items _ _ _; rfl
  | succ fuel ih =>
    intro fL fR out items hcL hcR hle
    obtain ⟨fL1, hrL, hdL, hcL1, heL⟩ := readWord_step fL wL eL hL1 hL4 hcL
    obtain ⟨fR1, hrR, hdR, hcR1, heR⟩ := readWord_step fR wR eR hR1 hR4 hcR
    have hnot : ¬ (fL1.eof = true ∧ fR1.eof = true) := by
      rw [heL, heR, lt_iff_div_eq_zero hL1, lt_iff_div_eq_zero hR1]
      generalize fL.rest.length / wL = a at hle
      generalize fR.rest.length / wR = b at hle
      omega
    have hcond : (fL1.eof && fR1.eof) = false := by
      cases h1 : fL1.eof <;> cases h2 : fR1.eof <;> simp_all
    have hle1 : fuel ≤ max (fL1.rest.length / wL) (fR1.rest.length / wR) := by
      rw [hdL, hdR, div_drop _ _ hL1, div_drop _ _ hR1]
      generalize fL.rest.length / wL = a at hle
      generalize fR.rest.length / wR = b at hle
      omega
    simp only [parseLoop, hrL, hrR, feof, hcond, Bool.false_eq_true, if_false]
    exact ih fL1 fR1 _ _ hcL1 hcR1 hle1

/-- C12: for finite input streams and widths in 1..4 the read loop of `parse`
terminates after exactly `max (lenL / wL) (lenR / wR) + 1` iterations: every budget of at
least that many iterations gives the same result, with both streams at end of file and
`max (lenL / wL) (lenR / wR)` frames written, and every smaller budget is used up.  An
iteration in which both channels are exhausted stops the loop and writes no frame. -/
theorem parse_terminates (host : Bool) (dataL : List Byte) (wL : Nat) (eL : Bool)
    (dataR : List Byte) (wR : Nat) (eR : Bool) (out : List Byte)
    (hL1 : 1 ≤ wL) (hL4 : wL ≤ 4) (hR1 : 1 ≤ wR) (hR4 : wR ≤ 4) :
    (∃ r : ParseResult,
      (∀ fuel : Nat, max (dataL.length / wL) (dataR.length / wR) + 1 ≤ fuel →
        parse fuel host (FILE.opened dataL) wL eL (FILE.opened dataR) wR eR out = .ok r) ∧
      feof r.inputLeft = true ∧ feof r.inputRight = true ∧
      r.output.length = out.length + 8 * max (dataL.length / wL) (dataR.length / wR)) ∧
    (∀ fuel : Nat, fuel ≤ max (dataL.length / wL) (dataR.length / wR) →
      parse fuel host (FILE.opened dataL) wL eL (FILE.opened dataR) wR eR out =
        .error .outOfFuel) ∧
    (∀ (fuel : Nat) (fL fR : FILE) (o : List Byte) (items : Int),
      fL.rest.length < wL → fR.rest.length < wR →
      parseLoop host wL eL wR eR (fuel + 1) fL fR o items =
        .ok { itemsWritten := items, inputLeft := FILE.exhausted,
              inputRight := FILE.exhausted, output := o }) := by
  refine ⟨⟨_, fun fuel hfuel =>
      parse_eq fuel host dataL wL eL dataR wR eR out hL1 hL4 hR1 hR4 (by omega),
      rfl, rfl, by simp [length_framesFrom]⟩, ?_, ?_⟩
  · intro fuel hfuel
    exact parseLoop_outOfFuel host wL eL wR eR hL1 hL4 hR1 hR4 fuel _ _ out 0
      (consistent_opened dataL) (consistent_opened dataR) hfuel
  · intro fuel fL fR o items hkL hkR
    simp [parseLoop, readWord_short fL wL eL hL4 hkL, readWord_short fR wR eR hR4 hkR,
      feof, FILE.exhausted]

theorem parse_terminates_witness :
    (∃ r : ParseResult,
      (∀ fuel : Nat, max (([0x01, 0x02, 0x03, 0x04, 0x05] : List Byte).length / 2)
          (([0x11, 0x12, 0x13] : List Byte).length / 1) + 1 ≤ fuel →
        parse fuel true (FILE.opened [0x01, 0x02, 0x03, 0x04, 0x05]) 2 false
          (FILE.opened [0x11, 0x12, 0x13]) 1 true [] = .ok r) ∧
      feof r.inputLeft = true ∧ feof r.inputRight = true ∧
      r.output.length = ([] : List Byte).length +
        8 * max (([0x01, 0x02, 0x03, 0x04, 0x05] : List Byte).length / 2)
          (([0x11, 0x12, 0x13] : List Byte).length / 1)) ∧
    (∀ fuel : Nat, fuel ≤ max (([0x01, 0x02, 0x03, 0x04, 0x05] : List Byte).length / 2)
        (([0x11, 0x12, 0x13] : List Byte).length / 1) →
      parse fuel true (FILE.opened [0x01, 0x02, 0x03, 0x04, 0x05]) 2 false
        (FILE.opened [0x11, 0x12, 0x13]) 1 true [] = .error .outOfFuel) ∧
    (∀ (fuel : Nat) (fL fR : FILE) (o : List Byte) (items : Int),
      fL.rest.length < 2 → fR.rest.length < 1 →
      parseLoop true 2 false 1 true (fuel + 1) fL fR o items =
        .ok { itemsWritten := items, inputLeft := FILE.exhausted,
              inputRight := FILE.exhausted, output := o }) :=
  parse_terminates true [0x01, 0x02, 0x03, 0x04, 0x05] 2 false [0x11, 0x12, 0x13] 1 true []
    (by decide) (by decide) (by decide) (by decide)

/-! ## Range of the samples -/

theorem twosComplement_range (w u : Nat) (h1 : 1 ≤ w) (hu : u < 2 ^ (8 * w)) :
    -(2 : Int) ^ (8 * w - 1) ≤ twosComplement w u ∧
      twosComplement w u ≤ (2 : Int) ^ (8 * w - 1) - 1 := by
  have e : 2 ^ (8 * w) = 2 * 2 ^ (8 * w - 1) := by
    have : 8 * w = (8 * w - 1) + 1 := by omega
    conv_lhs => rw [this, Nat.pow_succ]
    omega
  have hi : ((2 : Int) ^ (8 * w - 1)) = ((2 ^ (8 * w - 1) : Nat) : Int) := by push_cast; rfl
  have hi2 : ((2 : Int) ^ (8 * w)) = ((2 ^ (8 * w) : Nat) : Int) := by push_cast; rfl
  rw [hi]
  unfold twosComplement
  rw [hi2]
  generalize 2 ^ (8 * w - 1) = P at *
  generalize 2 ^ (8 * w) = Q at *
  split_ifs <;> omega

/-- In the 32-bit pattern of a value between `-2 ^ k` and `2 ^ k - 1`, every bit from
`k` up to 31 equals bit `k`. -/
theorem signBits_of_range (k : Nat) (v : Int) (hlo : -(2 : Int) ^ k ≤ v)
    (hhi : v ≤ (2 : Int) ^ k - 1) (j : Nat) (hj : k ≤ j) (hj32 : j < 32) :
    (v % 2 ^ 32).toNat.testBit j = (v % 2 ^ 32).toNat.testBit k := by
  have hP31 : 2 ^ k ≤ 2 ^ 31 := Nat.pow_le_pow_right (by decide) (by omega)
  have hPj : 2 ^ k ≤ 2 ^ j := Nat.pow_le_pow_right (by decide) hj
  have hi : ((2 : Int) ^ k) = ((2 ^ k : Nat) : Int) := by push_cast; rfl
  rw [hi] at hlo hhi
  by_cases h0 : 0 ≤ v
  · have hlt : v.toNat < 2 ^ k := by omega
    have e : (v % 2 ^ 32).toNat = v.toNat := by
      norm_num at hP31 ⊢
      omega
    rw [e, Nat.testBit_lt_two_pow (Nat.lt_of_lt_of_le hlt hPj), Nat.testBit_lt_two_pow hlt]
  · have hm : (-v - 1).toNat < 2 ^ k := by omega
    have hm32 : (-v - 1).toNat < 2 ^ 32 := by
      norm_num at hP31 ⊢
      omega
    have e : (v % 2 ^ 32).toNat = 2 ^ 32 - ((-v - 1).toNat + 1) := by
      norm_num at hP31 ⊢
      omega
    rw [e, Nat.testBit_two_pow_sub_succ hm32, Nat.testBit_two_pow_sub_succ hm32,
      Nat.testBit_lt_two_pow (Nat.lt_of_lt_of_le hm hPj), Nat.testBit_lt_two_pow hm]
    simp
    omega

/-- C13: for a width `w` in 1..4, either endianness and a `w`-byte word at the head of
the stream, the sample `readWord` returns lies between `-2 ^ (8 * w - 1)` and
`2 ^ (8 * w - 1) - 1`, and in its 32-bit pattern the bits `8 * w .. 31` all equal bit
`8 * w - 1`. -/
theorem readWord_sample_range (w : Nat) (b tail : List Byte) (eof e : Bool)
    (h1 : 1 ≤ w) (h4 : w ≤ 4) (hb : b.length = w) :
    ∃ (v : Int) (s : FILE),
      readWord { rest := b ++ tail, eof := eof } w e = .ok (v, s) ∧
      -(2 : Int) ^ (8 * w - 1) ≤ v ∧ v ≤ (2 : Int) ^ (8 * w - 1) - 1 ∧
      ∀ j : Nat, 8 * w ≤ j → j < 32 →
        (v % 2 ^ 32).toNat.testBit j = (v % 2 ^ 32).toNat.testBit (8 * w - 1) := by
  subst hb
  have hr := readWord_complete { rest := b ++ tail, eof := eof } b.length e h1 h4 (by simp)
  simp only [List.take_left'] at hr
  have hu : littleEndianValue (if e = true then b else mirrored b) < 2 ^ (8 * b.length) := by
    cases e with
    | true => simpa using littleEndianValue_lt b
    | false =>
      have := littleEndianValue_lt (mirrored b)
      rw [length_mirrored] at this
      simpa using this
  have hrange := twosComplement_range b.length _ h1 hu
  refine ⟨_, _, hr, hrange.1, hrange.2, ?_⟩
  intro j hj hj32
  exact signBits_of_range (8 * b.length - 1) _ hrange.1 hrange.2 j (by omega) hj32

theorem readWord_sample_range_witness :
    ∃ (v : Int) (s : FILE),
      readWord { rest := [0x96, 0x34, 0x12] ++ [0x55], eof := false } 3 false = .ok (v, s) ∧
      -(2 : Int) ^ (8 * 3 - 1) ≤ v ∧ v ≤ (2 : Int) ^ (8 * 3 - 1) - 1 ∧
      ∀ j : Nat, 8 * 3 ≤ j → j < 32 →
        (v % 2 ^ 32).toNat.testBit j = (v % 2 ^ 32).toNat.testBit (8 * 3 - 1) :=
  readWord_sample_range 3 [0x96, 0x34, 0x12] [0x55] false false (by decide) (by decide) rfl

/-! ## What a big-endian word keeps -/

theorem get?_holding_mirrored (word : List Byte) (h1 : 1 ≤ word.length)
    (h4 : word.length ≤ 4) (i : Nat) (hi : i < word.length) :
    (WordArray.holding (mirrored word)).get? i =
      some (some (word.getD (min i (word.length - 1 - i)) 0)) := by
  rcases length_cases word h1 h4 with ⟨a, rfl⟩ | ⟨a, b, rfl⟩ | ⟨a, b, c, rfl⟩ | ⟨a, b, c, d, rfl⟩ <;>
    · simp only [List.length_cons, List.length_nil] at hi
      interval_cases i <;> simp [WordArray.holding, mirrored, List.range_succ]

theorem mirrored_congr (w : Nat) (b1 b2 : List Byte) (h1 : 1 ≤ w) (h4 : w ≤ 4)
    (hb1 : b1.length = w) (hb2 : b2.length = w)
    (hagree : b1.take ((w + 1) / 2) = b2.take ((w + 1) / 2)) :
    mirrored b1 = mirrored b2 := by
  have hw : w = 1 ∨ w = 2 ∨ w = 3 ∨ w = 4 := by omega
  rcases hw with rfl | rfl | rfl | rfl <;>
    rcases length_cases b1 (by omega) (by omega) with
      ⟨a, rfl⟩ | ⟨a, b, rfl⟩ | ⟨a, b, c, rfl⟩ | ⟨a, b, c, d, rfl⟩ <;>
    rcases length_cases b2 (by omega) (by omega) with
      ⟨x, rfl⟩ | ⟨x, y, rfl⟩ | ⟨x, y, z, rfl⟩ | ⟨x, y, z, t, rfl⟩ <;>
    first
    | (exfalso; simp at hb1; done)
    | (exfalso; simp at hb2; done)
    | (simp at hagree
       simp [mirrored, List.range_succ, hagree])

/-- C14: for a width `w` in 1..4, `reverseEndian` leaves at each position `i < w` of the
word buffer the byte that was at position `min i (w - 1 - i)`, and for two `w`-byte
words that agree on their first `(w + 1) / 2` bytes `readWord` with
`isLittleEndian = false` returns the same sample: the last `w / 2` bytes of a big-endian
word do not influence the decoded value. -/
theorem readWord_bigEndian_ignores_last_bytes (w : Nat) (b1 b2 tail1 tail2 : List Byte)
    (eof1 eof2 : Bool) (h1 : 1 ≤ w) (h4 : w ≤ 4) (hb1 : b1.length = w) (hb2 : b2.length = w)
    (hagree : b1.take ((w + 1) / 2) = b2.take ((w + 1) / 2)) :
    (∃ p : WordArray, reverseEndian (WordArray.holding b1) w = .ok p ∧
      ∀ i : Nat, i < w → p.get? i = some (some (b1.getD (min i (w - 1 - i)) 0))) ∧
    ∃ (v : Int) (s1 s2 : FILE),
      readWord { rest := b1 ++ tail1, eof := eof1 } w false = .ok (v, s1) ∧
      readWord { rest := b2 ++ tail2, eof := eof2 } w false = .ok (v, s2) := by
  have hm := mirrored_congr w b1 b2 h1 h4 hb1 hb2 hagree
  constructor
  · subst hb1
    exact ⟨_, reverseEndian_holding b1 h1 h4, fun i hi => get?_holding_mirrored b1 h1 h4 i hi⟩
  · have hr1 := readWord_complete { rest := b1 ++ tail1, eof := eof1 } w false h1 h4
      (by simp; omega)
    have hr2 := readWord_complete { rest := b2 ++ tail2, eof := eof2 } w false h1 h4
      (by simp; omega)
    have t1 : (b1 ++ tail1).take w = b1 := by rw [← hb1]; simp
    have t2 : (b2 ++ tail2).take w = b2 := by rw [← hb2]; simp
    have hs : sampleOf false b2 = sampleOf false b1 := by
      simp only [sampleOf, Bool.false_eq_true, if_false, hm, hb1, hb2]
    simp only [t1] at hr1
    simp only [t2, hs] at hr2
    exact ⟨sampleOf false b1, _, _, hr1, hr2⟩

theorem readWord_bigEndian_ignores_last_bytes_witness :
    (∃ p : WordArray, reverseEndian (WordArray.holding [0x81, 0x02, 0x03, 0x04]) 4 = .ok p ∧
      ∀ i : Nat, i < 4 →
        p.get? i = some (some (([0x81, 0x02, 0x03, 0x04] : List Byte).getD
          (min i (4 - 1 - i)) 0))) ∧
    ∃ (v : Int) (s1 s2 : FILE),
      readWord { rest := [0x81, 0x02, 0x03, 0x04] ++ [], eof := false } 4 false = .ok (v, s1) ∧
      readWord { rest := [0x81, 0x02, 0xFE, 0x7F] ++ [0x00], eof := false } 4 false =
        .ok (v, s2) :=
  readWord_bigEndian_ignores_last_bytes 4 [0x81, 0x02, 0x03, 0x04] [0x81, 0x02, 0xFE, 0x7F]
    [] [0x00] false false (by decide) (by decide) rfl rfl (by decide)

/-! ## Absence of faults for widths 1..4 -/

theorem load_holding (word : List Byte) (h1 : 1 ≤ word.length) (h4 : word.length ≤ 4)
    (x : Nat) (hx : x < word.length) :
    ∃ c : Byte, load (WordArray.holding word) x = .ok c := by
  rcases length_cases word h1 h4 with ⟨a, rfl⟩ | ⟨a, b, rfl⟩ | ⟨a, b, c, rfl⟩ | ⟨a, b, c, d, rfl⟩ <;>
    · simp only [List.length_cons, List.length_nil] at hx
      interval_cases x <;> simp [load, WordArray.holding]

/-- C15: for a width `w` in 1..4, the indices `x` and `w - x - 1` (for `x < w`) used on
`wordArray` by `readWord` and `reverseEndian` lie in `0 .. w - 1`, so the loads from the
stored word and the stores into the four cells succeed; the shift counts `x << 3` (for `x < w`), `(w << 3) - 1` and every `x`
with `w << 3 ≤ x < 32` lie in `0 .. 31`, so the shifts succeed; and `readWord` and
`reverseEndian` end without a fault on every stream and every word. -/
theorem readWord_no_fault (w : Nat) (h1 : 1 ≤ w) (h4 : w ≤ 4) :
    (∀ x : Nat, x < w → x ≤ w - 1 ∧ w - x - 1 ≤ w - 1 ∧ x <<< 3 ≤ 31) ∧
    (w <<< 3) - 1 ≤ 31 ∧
    (∀ (word : List Byte) (x : Nat), word.length = w → x < w →
      (∃ c : Byte, load (WordArray.holding word) x = .ok c) ∧
      (∀ (p : WordArray) (c : Byte), p.length = 4 →
        ∃ q : WordArray, store p (w - x - 1) c = .ok q)) ∧
    (∀ (a x : Nat), x < w → ∃ t : Nat, shiftLeft32 a (x <<< 3) = .ok t) ∧
    (∃ m : Nat, oneShiftLeft ((w <<< 3) - 1) = .ok m) ∧
    (∀ x : Nat, w <<< 3 ≤ x → x < 4 <<< 3 → ∃ m : Nat, oneShiftLeft x = .ok m) ∧
    (∀ word : List Byte, word.length = w →
      ∃ p : WordArray, reverseEndian (WordArray.holding word) w = .ok p) ∧
    (∀ (f : FILE) (e : Bool), ∃ (v : Int) (s : FILE), readWord f w e = .ok (v, s)) := by
  have hs : w <<< 3 = 8 * w := by rw [Nat.shiftLeft_eq]; omega
  refine ⟨?_, ?_, ?_, ?_, ?_, ?_, ?_, ?_⟩
  · intro x hx
    have : x <<< 3 = 8 * x := by rw [Nat.shiftLeft_eq]; omega
    omega
  · omega
  · intro word x hw hx
    subst hw
    refine ⟨load_holding word h1 h4 x hx, fun p c hp =>
      ⟨p.set (word.length - x - 1) (some c), ?_⟩⟩
    rw [store, if_pos (by omega)]
  · intro a x hx
    have : x <<< 3 < 32 := by rw [Nat.shiftLeft_eq]; omega
    exact ⟨_, by rw [shiftLeft32, if_pos this]⟩
  · exact ⟨_, oneShiftLeft_eq (by omega)⟩
  · intro x _ hx
    exact ⟨_, oneShiftLeft_eq (by simpa [Nat.shiftLeft_eq] using hx)⟩
  · intro word hw
    subst hw
    exact ⟨_, reverseEndian_holding word h1 h4⟩
  · intro f e
    by_cases hk : w ≤ f.rest.length
    · exact ⟨_, _, readWord_complete f w e h1 h4 hk⟩
    · exact ⟨_, _, readWord_short f w e h4 (Nat.lt_of_not_le hk)⟩

theorem readWord_no_fault_witness :
    (∀ x : Nat, x < 3 → x ≤ 3 - 1 ∧ 3 - x - 1 ≤ 3 - 1 ∧ x <<< 3 ≤ 31) ∧
    (3 <<< 3) - 1 ≤ 31 ∧
    (∀ (word : List Byte) (x : Nat), word.length = 3 → x < 3 →
      (∃ c : Byte, load (WordArray.holding word) x = .ok c) ∧
      (∀ (p : WordArray) (c : Byte), p.length = 4 →
        ∃ q : WordArray, store p (3 - x - 1) c = .ok q)) ∧
    (∀ (a x : Nat), x < 3 → ∃ t : Nat, shiftLeft32 a (x <<< 3) = .ok t) ∧
    (∃ m : Nat, oneShiftLeft ((3 <<< 3) - 1) = .ok m) ∧
    (∀ x : Nat, 3 <<< 3 ≤ x → x < 4 <<< 3 → ∃ m : Nat, oneShiftLeft x = .ok m) ∧
    (∀ word : List Byte, word.length = 3 →
      ∃ p : WordArray, reverseEndian (WordArray.holding word) 3 = .ok p) ∧
    (∀ (f : FILE) (e : Bool), ∃ (v : Int) (s : FILE), readWord f 3 e = .ok (v, s)) :=
  readWord_no_fault 3 (by decide) (by decide)

end AudioFileCompare


